import Mathlib

/-!
Verification of the knowledge-base ingestion pipeline
(`build_knowledge_base.py`): deterministic text chunking, retry/backoff
embedding acquisition, wave-based bounded-concurrency scheduling and
per-wave persistence.

Texts are modelled as `List Char` (Python `str`), fallible loops as
fuel-bounded functions returning `Option`, remote calls as explicit
response functions, and the wave loop as a state-passing interpreter
that also records an event trace.
-/

namespace KB

/-- Python `str.strip()`: drop leading and trailing whitespace. -/
def pyStrip (t : List Char) : List Char :=
  ((t.dropWhile Char.isWhitespace).reverse.dropWhile Char.isWhitespace).reverse

/-- The `while start < len(text)` loop of `chunk_text`, fuel-bounded.
`none` means the fuel ran out (the Python loop has not terminated within
`fuel` iterations). -/
def chunkLoop (t : List Char) (size overlap : Nat) :
    Nat → Nat → List (List Char) → Option (List (List Char))
  | 0, _, _ => none
  | fuel + 1, start, acc =>
    if start < t.length then
      let e := min (start + size) t.length
      let c := (t.drop start).take (e - start)
      if e = t.length then
        some (acc ++ [c])
      else
        chunkLoop t size overlap fuel (start + (size - overlap)) (acc ++ [c])
    else
      some acc

/-- `chunk_text(text, chunk_size, overlap)`: strip, return `[]` on empty,
otherwise run the sliding-window loop.  Fuel `length + 1` is enough
whenever `overlap < size` (proved below). -/
def chunk_text (t : List Char) (size overlap : Nat) : Option (List (List Char)) :=
  let s := pyStrip t
  if s.isEmpty then some []
  else chunkLoop s size overlap (s.length + 1) 0 []

/-- `chunk_text` with caller-chosen fuel, for statements about
(non-)termination of the underlying loop. -/
def chunkTextFuel (fuel : Nat) (t : List Char) (size overlap : Nat) :
    Option (List (List Char)) :=
  let s := pyStrip t
  if s.isEmpty then some []
  else chunkLoop s size overlap fuel 0 []

/-- Concatenate chunks with the `o`-character overlap removed from every
chunk after the first. -/
def glue (o : Nat) : List (List Char) → List Char
  | [] => []
  | c :: cs => c ++ (cs.map (List.drop o)).flatten

example : chunk_text "hello world".data 5 2 =
    some ["hello".data, "lo wo".data, "world".data] := by decide

example : glue 2 ["hello".data, "lo wo".data, "world".data] = "hello world".data := by
  decide

example : chunk_text "  ".data 5 2 = some [] := by decide

lemma chunkLoop_isSome (t : List Char) (size overlap : Nat) (hov : overlap < size) :
    ∀ fuel start acc, start < t.length → t.length - start < fuel →
      (chunkLoop t size overlap fuel start acc).isSome := by
  intro fuel
  induction fuel with
  | zero => intro start acc h1 h2; omega
  | succ f ih =>
    intro start acc h1 h2
    simp only [chunkLoop, if_pos h1]
    by_cases he : min (start + size) t.length = t.length
    · simp [he]
    · simp only [if_neg he]
      apply ih
      · omega
      · omega

lemma glue_append (o : Nat) (acc : List (List Char)) (c : List Char) :
    glue o (acc ++ [c]) =
      if acc = [] then c else glue o acc ++ c.drop o := by
  cases acc with
  | nil => simp [glue]
  | cons a as => simp [glue]

lemma chunkLoop_glue (t : List Char) (size overlap : Nat) (hov : overlap < size) :
    ∀ fuel start acc res,
      ((start = 0 ∧ acc = [] ∧ 0 < t.length) ∨
        (0 < start ∧ start + overlap < t.length ∧ acc ≠ [] ∧
          glue overlap acc = t.take (start + overlap))) →
      chunkLoop t size overlap fuel start acc = some res →
      glue overlap res = t := by
  intro fuel
  induction fuel with
  | zero => intro start acc res _ h; simp [chunkLoop] at h
  | succ f ih =>
    intro start acc res hinv h
    have hstart : start < t.length := by
      rcases hinv with ⟨h0, _, hl⟩ | ⟨_, hl, _, _⟩ <;> omega
    simp only [chunkLoop, if_pos hstart] at h
    by_cases he : min (start + size) t.length = t.length
    · rw [if_pos he] at h
      obtain rfl : acc ++ [(t.drop start).take (min (start + size) t.length - start)] = res :=
        Option.some.inj h
      rw [he] at *
      have hc : (t.drop start).take (t.length - start) = t.drop start := by
        rw [← List.length_drop]
        exact List.take_length _
      rw [glue_append, hc]
      rcases hinv with ⟨h0, ha, _⟩ | ⟨hpos, hlt, hne, hglue⟩
      · subst h0; subst ha; simp
      · rw [if_neg hne, hglue]
        rw [List.drop_drop]
        exact List.take_append_drop _ t
    · rw [if_neg he] at h
      have hsz : start + size < t.length := by omega
      have hmin : min (start + size) t.length = start + size := by omega
      apply ih _ _ res _ h
      right
      refine ⟨by omega, by omega, by simp, ?_⟩
      rw [glue_append]
      have harith : start + (size - overlap) + overlap = start + size := by omega
      rw [harith, hmin]
      have hc : ((t.drop start).take (start + size - start)).drop overlap
          = (t.drop (start + overlap)).take (start + size - (start + overlap)) := by
        rw [List.drop_take, List.drop_drop]
        congr 1
        omega
      rcases hinv with ⟨h0, ha, _⟩ | ⟨hpos, hlt, hne, hglue⟩
      · subst h0; subst ha
        simp only [if_pos rfl]
        simp
      · rw [if_neg hne, hglue, hc]
        have h3 := (List.take_add t (start + overlap) (start + size - (start + overlap))).symm
        have h2 : (start + overlap) + (start + size - (start + overlap)) = start + size := by
          omega
        rw [h2] at h3
        exact h3

/-- C1: concatenating the chunks with the `overlap`-character overlap
removed between consecutive chunks reconstructs the stripped text. -/
theorem chunk_text_reconstructs (t : List Char) (size overlap : Nat)
    (hov : overlap < size) (cs : List (List Char))
    (h : chunk_text t size overlap = some cs) :
    glue overlap cs = pyStrip t := by
  unfold chunk_text at h
  by_cases hs : (pyStrip t).isEmpty
  · rw [if_pos hs] at h
    obtain rfl : ([] : List (List Char)) = cs := by
      simpa using h
    rw [List.isEmpty_iff] at hs
    simp [glue, hs]
  · rw [if_neg hs] at h
    apply chunkLoop_glue _ _ _ hov _ _ _ _ _ h
    left
    refine ⟨rfl, rfl, ?_⟩
    rw [List.isEmpty_iff] at hs
    exact List.length_pos.mpr hs

/-- C1 witness instance. -/
theorem chunk_text_reconstructs_witness :
    2 < 5 ∧ glue 2 ["hello".data, "lo wo".data, "world".data] = pyStrip "hello world".data :=
  ⟨by decide, chunk_text_reconstructs "hello world".data 5 2 (by decide) _ (by decide)⟩

lemma ceil_div_one_cases (x d : Nat) (hx : 1 ≤ x) (hxd : x ≤ d) :
    (x + d - 1) / d = 1 := by
  apply Nat.div_eq_of_lt_le
  · omega
  · omega

lemma chunkLoop_length (t : List Char) (size overlap : Nat) (hov : overlap < size) :
    ∀ fuel start acc res, start < t.length →
      chunkLoop t size overlap fuel start acc = some res →
      res.length = acc.length + 1 +
        (t.length - (start + size) + (size - overlap) - 1) / (size - overlap) := by
  intro fuel
  induction fuel with
  | zero => intro start acc res _ h; simp [chunkLoop] at h
  | succ f ih =>
    intro start acc res hstart h
    simp only [chunkLoop, if_pos hstart] at h
    by_cases he : min (start + size) t.length = t.length
    · rw [if_pos he] at h
      obtain rfl : acc ++ [(t.drop start).take (min (start + size) t.length - start)] = res :=
        Option.some.inj h
      have hz : t.length - (start + size) = 0 := by omega
      rw [hz, List.length_append]
      have : (0 + (size - overlap) - 1) / (size - overlap) = 0 :=
        Nat.div_eq_of_lt (by omega)
      rw [this]
      simp
    · rw [if_neg he] at h
      have hsz : start + size < t.length := by omega
      have hrec := ih _ _ res (by omega) h
      rw [hrec, List.length_append]
      have hkey : (t.length - (start + size) + (size - overlap) - 1) / (size - overlap)
          = 1 + (t.length - (start + (size - overlap) + size) + (size - overlap) - 1)
              / (size - overlap) := by
        set d := size - overlap with hd
        have hd1 : 1 ≤ d := by omega
        set x := t.length - (start + size) with hx
        have hx1 : 1 ≤ x := by omega
        have hrw : t.length - (start + d + size) = x - d := by omega
        rw [hrw]
        rcases le_or_lt d x with hc | hc
        · have e1 : x - d + d - 1 = x - 1 := by omega
          have e2 : x + d - 1 = (x - 1) + d := by omega
          rw [e1, e2, Nat.add_div_right _ (by omega)]
          omega
        · have e1 : x - d + d - 1 = d - 1 := by omega
          rw [e1, ceil_div_one_cases x d hx1 (by omega),
            Nat.div_eq_of_lt (show d - 1 < d by omega)]
      rw [hkey]
      simp
      omega

/-- C2: for stripped length exceeding the overlap, the number of chunks is
`ceil((L - O) / (S - O))`, and at most one chunk when `L ≤ S`. -/
theorem chunk_text_count (t : List Char) (size overlap : Nat)
    (hov : overlap < size) (hL : overlap < (pyStrip t).length)
    (cs : List (List Char)) (h : chunk_text t size overlap = some cs) :
    cs.length = ((pyStrip t).length - overlap + (size - overlap) - 1) / (size - overlap) ∧
      ((pyStrip t).length ≤ size → cs.length = 1) := by
  unfold chunk_text at h
  have hne : ¬(pyStrip t).isEmpty := by
    rw [List.isEmpty_iff]
    intro he
    rw [he] at hL
    simp at hL
  rw [if_neg hne] at h
  have hpos : 0 < (pyStrip t).length := by omega
  have hlen := chunkLoop_length (pyStrip t) size overlap hov _ 0 [] cs hpos h
  simp only [List.length_nil, Nat.zero_add] at hlen
  have hmain : cs.length =
      ((pyStrip t).length - overlap + (size - overlap) - 1) / (size - overlap) := by
    rw [hlen]
    rcases le_or_lt size (pyStrip t).length with hc | hc
    · have e1 : (pyStrip t).length - overlap + (size - overlap) - 1
          = ((pyStrip t).length - size + (size - overlap) - 1) + (size - overlap) := by omega
      rw [e1, Nat.add_div_right _ (show 0 < size - overlap by omega)]
      omega
    · have e1 : (pyStrip t).length - size = 0 := by omega
      rw [e1, ceil_div_one_cases ((pyStrip t).length - overlap) (size - overlap)
          (by omega) (by omega),
        Nat.div_eq_of_lt (show 0 + (size - overlap) - 1 < size - overlap by omega)]
  refine ⟨hmain, fun hle => ?_⟩
  rw [hmain, ceil_div_one_cases ((pyStrip t).length - overlap) (size - overlap)
    (by omega) (by omega)]

/-- C2 witness instance. -/
theorem chunk_text_count_witness :
    2 < 5 ∧ 2 < (pyStrip "hello world".data).length ∧
      (["hello".data, "lo wo".data, "world".data].length
          = ((pyStrip "hello world".data).length - 2 + (5 - 2) - 1) / (5 - 2) ∧
        ((pyStrip "hello world".data).length ≤ 5 →
          ["hello".data, "lo wo".data, "world".data].length = 1)) :=
  ⟨by decide, by decide,
    chunk_text_count "hello world".data 5 2 (by decide) (by decide) _ (by decide)⟩

/-- C10: with `0 < size` and `overlap < size` the chunking loop
terminates — the fuel `length + 1` built into `chunk_text` suffices,
because every iteration either ends the loop or advances `start` by
`size - overlap ≥ 1`. -/
theorem chunk_text_terminates (t : List Char) (size overlap : Nat)
    (hsz : 0 < size) (hov : overlap < size) :
    (chunk_text t size overlap).isSome := by
  unfold chunk_text
  by_cases hs : (pyStrip t).isEmpty
  · rw [if_pos hs]
    rfl
  · rw [if_neg hs]
    apply chunkLoop_isSome _ _ _ hov
    · rw [List.isEmpty_iff] at hs
      exact List.length_pos.mpr hs
    · omega

/-- C10 witness instance. -/
theorem chunk_text_terminates_witness :
    0 < 2 ∧ 1 < 2 ∧ (chunk_text "abc".data 2 1).isSome :=
  ⟨by decide, by decide, chunk_text_terminates "abc".data 2 1 (by decide) (by decide)⟩

/-- C3: `chunk_text` has no guard for `overlap ≥ size`.  At
`chunk_text("ab", size := 1, overlap := 1)` the advance step is `0`, the
loop never terminates (no fuel bound is ever enough), and no error is
signalled. -/
theorem chunk_text_no_overlap_guard :
    ∀ fuel, chunkTextFuel fuel "ab".data 1 1 = none := by
  have key : ∀ f acc, chunkLoop "ab".data 1 1 f 0 acc = none := by
    intro f
    induction f with
    | zero => intro acc; rfl
    | succ g ih =>
      intro acc
      show chunkLoop "ab".data 1 1 g 0 (acc ++ [['a']]) = none
      exact ih _
  intro fuel
  unfold chunkTextFuel
  have hstrip : pyStrip "ab".data = "ab".data := by decide
  rw [hstrip]
  rw [if_neg (by decide)]
  exact key fuel []

/-! ## Embedding Client (`get_embedding`) -/

/-- `get_embedding(session, text, retries)` modelled by the per-attempt
HTTP status `resp : Nat → Nat` of the remote endpoint.  The first
component is the index of the succeeding attempt (standing for the
embedding parsed from the 200 response body), `none` modelling the final
`raise RuntimeError`; the second component is the log of backoff sleeps
in seconds (the 429 branch sleeps `2 ^ attempt`, every other non-200
status sleeps `2`). -/
def get_embedding (resp : Nat → Nat) : Nat → Nat → List Nat → Option Nat × List Nat
  | 0, _, sleeps => (none, sleeps)
  | r + 1, attempt, sleeps =>
    if resp attempt = 200 then (some attempt, sleeps)
    else if resp attempt = 429 then
      get_embedding resp r (attempt + 1) (sleeps ++ [2 ^ attempt])
    else
      get_embedding resp r (attempt + 1) (sleeps ++ [2])

lemma get_embedding_all_fail (resp : Nat → Nat) (hfail : ∀ a, resp a = 500) :
    ∀ r attempt sleeps,
      get_embedding resp r attempt sleeps = (none, sleeps ++ List.replicate r 2) := by
  intro r
  induction r with
  | zero => intro attempt sleeps; simp [get_embedding]
  | succ n ih =>
    intro attempt sleeps
    rw [show get_embedding resp (n + 1) attempt sleeps
        = get_embedding resp n (attempt + 1) (sleeps ++ [2]) by
      simp [get_embedding, hfail attempt]]
    rw [ih]
    simp [List.replicate_succ]

/-- C7: an endpoint answering 429, 429, 200 yields success on attempt 2
after exactly the two backoff sleeps `2^0` and `2^1` seconds, for any
configured retry budget of at least 3; an endpoint answering 500 on
every attempt yields terminal failure after exactly `retries` attempts,
each followed by a 2-second sleep. -/
theorem get_embedding_retry_backoff (resp bad : Nat → Nat) (retries : Nat)
    (hr : 3 ≤ retries)
    (h0 : resp 0 = 429) (h1 : resp 1 = 429) (h2 : resp 2 = 200)
    (hfail : ∀ a, bad a = 500) :
    get_embedding resp retries 0 [] = (some 2, [2 ^ 0, 2 ^ 1]) ∧
      get_embedding bad retries 0 [] = (none, List.replicate retries 2) := by
  constructor
  · obtain ⟨k, rfl⟩ : ∃ k, retries = k + 3 := ⟨retries - 3, by omega⟩
    show get_embedding resp (k + 2 + 1) 0 [] = _
    simp [get_embedding, h0, h1, h2]
  · simpa using get_embedding_all_fail bad hfail retries 0 []

/-- C7 witness instance. -/
theorem get_embedding_retry_backoff_witness :
    get_embedding (fun a => if a < 2 then 429 else 200) 3 0 [] = (some 2, [2 ^ 0, 2 ^ 1]) ∧
      get_embedding (fun _ => 500) 3 0 [] = (none, List.replicate 3 2) :=
  get_embedding_retry_backoff _ _ 3 (by decide) (by decide) (by decide) (by decide)
    (fun _ => rfl)

/-! ## Batch Scheduler (the wave loop `for i in range(0, len(to_insert), CONCURRENT_REQUESTS)`) -/

/-- The wave slicing `to_insert[i:i+n]` for `i in range(0, len, n)`,
written with explicit fuel (`l.length` iterations always suffice for
`0 < n`). -/
def toBatchesAux {α : Type} (n : Nat) : Nat → List α → List (List α)
  | 0, _ => []
  | fuel + 1, l =>
    if l.isEmpty then [] else l.take n :: toBatchesAux n fuel (l.drop n)

/-- Split the pending segment list into consecutive waves of at most `n`
segments. -/
def toBatches {α : Type} (n : Nat) (l : List α) : List (List α) :=
  toBatchesAux n l.length l

/-- Read the result slots of one wave back in dispatch order; `none` if
some slot was never filled. -/
def collectSlots {β : Type} : List (Option β) → Option (List β)
  | [] => some []
  | none :: _ => none
  | some b :: rest => (collectSlots rest).map (b :: ·)

/-- A call of the wave completes: slot `i` receives the result for
segment `i` of the batch. -/
def storeSlot {α β : Type} (f : α → β) (batch : List α)
    (slots : List (Option β)) (i : Nat) : List (Option β) :=
  match batch[i]? with
  | some a => slots.set i (some (f a))
  | none => slots

/-- One `asyncio.gather` wave: the calls of the wave run concurrently and
complete in the order given by `order`; each completing call stores its
result into its own slot, and the wave returns the slots in dispatch
order — completion order never reorders results. -/
def gatherWave {α β : Type} (f : α → β) (batch : List α) (order : List Nat) :
    Option (List β) :=
  collectSlots (order.foldl (storeSlot f batch) (List.replicate batch.length none))

/-- Sequential waves, each with its own completion order. -/
def runWavesJitter {α β : Type} (f : α → β) :
    List (List α) → List (List Nat) → Option (List β)
  | [], _ => some []
  | _ :: _, [] => none
  | b :: bs, o :: os =>
    match gatherWave f b o with
    | none => none
    | some rs => (runWavesJitter f bs os).map (rs ++ ·)

/-- The Batch Scheduler: slice into waves of at most `n`, run the waves
sequentially. -/
def batchScheduler {α β : Type} (f : α → β) (n : Nat) (l : List α)
    (orders : List (List Nat)) : Option (List β) :=
  runWavesJitter f (toBatches n l) orders

lemma toBatchesAux_length {α : Type} (n : Nat) (hn : 0 < n) :
    ∀ (fuel : Nat) (l : List α), l.length ≤ fuel →
      (toBatchesAux n fuel l).length = (l.length + n - 1) / n := by
  intro fuel
  induction fuel with
  | zero =>
    intro l hl
    have hnil : l = [] := List.eq_nil_of_length_eq_zero (by omega)
    subst hnil
    simp [toBatchesAux]
    exact (Nat.div_eq_of_lt (by omega)).symm
  | succ k ih =>
    intro l hl
    by_cases hnil : l.isEmpty
    · rw [List.isEmpty_iff] at hnil
      subst hnil
      simp [toBatchesAux]
      exact (Nat.div_eq_of_lt (by omega)).symm
    · have hpos : 0 < l.length := by
        rw [List.isEmpty_iff] at hnil
        exact List.length_pos.mpr hnil
      rw [toBatchesAux, if_neg hnil]
      simp only [List.length_cons]
      rw [ih (l.drop n) (by rw [List.length_drop]; omega), List.length_drop]
      rcases le_or_lt n l.length with hc | hc
      · have e : l.length + n - 1 = (l.length - n + n - 1) + n := by omega
        rw [e, Nat.add_div_right _ hn]
      · have e1 : l.length - n = 0 := by omega
        rw [e1, Nat.div_eq_of_lt (show 0 + n - 1 < n by omega),
          ceil_div_one_cases l.length n (by omega) (by omega)]

lemma toBatchesAux_flatten {α : Type} (n : Nat) (hn : 0 < n) :
    ∀ (fuel : Nat) (l : List α), l.length ≤ fuel →
      (toBatchesAux n fuel l).flatten = l := by
  intro fuel
  induction fuel with
  | zero =>
    intro l hl
    have hnil : l = [] := List.eq_nil_of_length_eq_zero (by omega)
    subst hnil
    simp [toBatchesAux]
  | succ k ih =>
    intro l hl
    by_cases hnil : l.isEmpty
    · rw [List.isEmpty_iff] at hnil
      subst hnil
      simp [toBatchesAux]
    · have hpos : 0 < l.length := by
        rw [List.isEmpty_iff] at hnil
        exact List.length_pos.mpr hnil
      rw [toBatchesAux, if_neg hnil]
      rw [List.flatten_cons, ih (l.drop n) (by rw [List.length_drop]; omega)]
      exact List.take_append_drop n l

lemma toBatchesAux_sizes {α : Type} (n : Nat) :
    ∀ (fuel : Nat) (l : List α), ∀ b ∈ toBatchesAux n fuel l, b.length ≤ n := by
  intro fuel
  induction fuel with
  | zero => intro l b hb; simp [toBatchesAux] at hb
  | succ k ih =>
    intro l b hb
    by_cases hnil : l.isEmpty
    · rw [toBatchesAux, if_pos hnil] at hb
      simp at hb
    · rw [toBatchesAux, if_neg hnil] at hb
      rcases List.mem_cons.mp hb with rfl | hb2
      · simpa using Nat.min_le_left n l.length
      · exact ih _ b hb2

lemma storeSlot_none {α β : Type} (f : α → β) (batch : List α)
    (slots : List (Option β)) (i : Nat) (h : batch[i]? = none) :
    storeSlot f batch slots i = slots := by
  unfold storeSlot
  rw [h]

lemma storeSlot_some {α β : Type} (f : α → β) (batch : List α)
    (slots : List (Option β)) (i : Nat) (a : α) (h : batch[i]? = some a) :
    storeSlot f batch slots i = slots.set i (some (f a)) := by
  unfold storeSlot
  rw [h]

lemma foldl_slots {α β : Type} (f : α → β) (batch : List α) :
    ∀ (order : List Nat) (init : List (Option β)), init.length = batch.length →
      (order.foldl (storeSlot f batch) init).length = batch.length ∧
        ∀ j, (hj : j < batch.length) →
          (order.foldl (storeSlot f batch) init)[j]? =
            if j ∈ order then some (some (f batch[j])) else init[j]? := by
  intro order
  induction order with
  | nil =>
    intro init hlen
    refine ⟨hlen, fun j hj => ?_⟩
    simp
  | cons i rest ih =>
    intro init hlen
    simp only [List.foldl_cons]
    rcases hbi : batch[i]? with _ | a
    · have hge : ¬ i < batch.length := by
        intro hc
        rw [List.getElem?_eq_getElem hc] at hbi
        cases hbi
      rw [storeSlot_none f batch init i hbi]
      obtain ⟨hlen2, hget⟩ := ih init hlen
      refine ⟨hlen2, fun j hj => ?_⟩
      rw [hget j hj]
      have hne : j ≠ i := fun hc => hge (hc ▸ hj)
      simp [List.mem_cons, hne]
    · have hi : i < batch.length := by
        by_contra hc
        rw [List.getElem?_eq_none (by omega)] at hbi
        cases hbi
      rw [storeSlot_some f batch init i a hbi]
      obtain ⟨hlen2, hget⟩ := ih (init.set i (some (f a))) (by simp [hlen])
      refine ⟨hlen2, fun j hj => ?_⟩
      rw [hget j hj]
      by_cases hjr : j ∈ rest
      · simp [hjr, List.mem_cons]
      · by_cases hji : j = i
        · subst hji
          have hbj : batch[j] = a := by
            have h2 := List.getElem?_eq_getElem hj
            rw [hbi] at h2
            exact (Option.some.inj h2).symm
          simp [hjr, List.mem_cons, hbj,
            List.getElem?_set_self (show j < init.length by omega)]
        · simp [hjr, hji, List.mem_cons, List.getElem?_set_ne (fun hc => hji hc.symm)]

lemma collectSlots_map_some {β : Type} (l : List β) :
    collectSlots (l.map (fun b => some b)) = some l := by
  induction l with
  | nil => rfl
  | cons b rest ih => simp [collectSlots, ih]

lemma gatherWave_perm {α β : Type} (f : α → β) (batch : List α) (order : List Nat)
    (h : order.Perm (List.range batch.length)) :
    gatherWave f batch order = some (batch.map f) := by
  unfold gatherWave
  obtain ⟨hlen, hget⟩ := foldl_slots f batch order
    (List.replicate batch.length none) (by simp)
  have hslots : order.foldl (storeSlot f batch) (List.replicate batch.length none)
      = (batch.map f).map (fun b => some b) := by
    apply List.ext_getElem?
    intro j
    by_cases hj : j < batch.length
    · rw [hget j hj]
      have hmem : j ∈ order := by
        rw [h.mem_iff, List.mem_range]
        exact hj
      rw [if_pos hmem]
      rw [List.getElem?_map, List.getElem?_map, List.getElem?_eq_getElem hj]
      rfl
    · rw [List.getElem?_eq_none (show (order.foldl (storeSlot f batch)
          (List.replicate batch.length none)).length ≤ j by omega),
        List.getElem?_eq_none (by simp; omega)]
  rw [hslots, collectSlots_map_some]

lemma runWavesJitter_ok {α β : Type} (f : α → β) (bs : List (List α))
    (os : List (List Nat))
    (h : List.Forall₂ (fun b o => o.Perm (List.range b.length)) bs os) :
    runWavesJitter f bs os = some ((bs.map (List.map f)).flatten) := by
  induction h with
  | nil => simp [runWavesJitter]
  | cons hrel hrest ih =>
    simp only [runWavesJitter]
    rw [gatherWave_perm _ _ _ hrel]
    simp [ih]

/-- C4: for `M` pending segments and concurrency limit `n`, the scheduler
runs exactly `ceil(M/n)` waves of at most `n` segments each, and —
whatever completion order the calls of each wave finish in — the result
list is `l.map f`, i.e. position `i` of the output is the embedding of
input segment `i`. -/
theorem batch_scheduler_waves {α β : Type} (f : α → β) (n : Nat) (l : List α)
    (orders : List (List Nat)) (hn : 0 < n)
    (hord : List.Forall₂ (fun b o => o.Perm (List.range b.length)) (toBatches n l) orders) :
    batchScheduler f n l orders = some (l.map f) ∧
      (toBatches n l).length = (l.length + n - 1) / n ∧
      ∀ b ∈ toBatches n l, b.length ≤ n := by
  refine ⟨?_, toBatchesAux_length n hn l.length l (Nat.le_refl _),
    fun b hb => toBatchesAux_sizes n l.length l b hb⟩
  unfold batchScheduler
  rw [runWavesJitter_ok f _ _ hord]
  congr 1
  rw [← List.map_flatten]
  unfold toBatches
  rw [toBatchesAux_flatten n hn l.length l (Nat.le_refl _)]

/-- C4 witness instance. -/
theorem batch_scheduler_waves_witness :
    batchScheduler (fun x => x + 1) 2 [10, 20, 30] [[1, 0], [0]] = some [11, 21, 31] ∧
      (toBatches 2 [10, 20, 30]).length = (3 + 2 - 1) / 2 ∧
      ∀ b ∈ toBatches 2 [10, 20, 30], b.length ≤ 2 :=
  batch_scheduler_waves (fun x => x + 1) 2 [10, 20, 30] [[1, 0], [0]] (by decide)
    (List.Forall₂.cons (by decide) (List.Forall₂.cons (by decide) List.Forall₂.nil))

/-! ## Per-wave persistence and failure propagation -/

/-- Events of a run of the wave loop: an embedding call dispatched in
wave `k`, and the insert-plus-`conn.commit()` ending wave `k`. -/
inductive Ev where
  | call (wave : Nat)
  | commit (wave : Nat)
deriving DecidableEq

/-- `asyncio.gather` over fallible embedding calls: an exception
propagates out of the gather, otherwise the results come back in
dispatch order. -/
def gatherE {α β ε : Type} (embed : α → Except ε β) : List α → Except ε (List β)
  | [] => .ok []
  | a :: as =>
    match embed a with
    | .error e => .error e
    | .ok b =>
      match gatherE embed as with
      | .error e => .error e
      | .ok bs => .ok (b :: bs)

/-- The wave loop shared by `process_discourse` and `process_markdown`:
per wave, dispatch the embedding calls, gather, zip the wave's segments
with their embeddings, insert and commit, then move on.  Returns the
committed store, the event trace, and the uncaught error, if any. -/
def runWaves {α β ε : Type} (embed : α → Except ε β) :
    List (List α) → Nat → List (α × β) → List Ev →
      List (α × β) × List Ev × Option ε
  | [], _, store, tr => (store, tr, none)
  | b :: bs, k, store, tr =>
    match gatherE embed b with
    | .error e => (store, tr ++ b.map (fun _ => Ev.call k), some e)
    | .ok embs =>
      runWaves embed bs (k + 1) (store ++ b.zip embs)
        ((tr ++ b.map (fun _ => Ev.call k)) ++ [Ev.commit k])

lemma gatherE_ok_of_all {α β ε : Type} (embed : α → Except ε β) :
    ∀ b : List α, (∀ a ∈ b, ∃ v, embed a = .ok v) →
      ∃ vs, gatherE embed b = .ok vs := by
  intro b
  induction b with
  | nil => intro _; exact ⟨[], rfl⟩
  | cons a as ih =>
    intro h
    obtain ⟨v, hv⟩ := h a (List.mem_cons_self a as)
    obtain ⟨vs, hvs⟩ := ih (fun x hx => h x (List.mem_cons_of_mem a hx))
    refine ⟨v :: vs, ?_⟩
    simp [gatherE, hv, hvs]

lemma gatherE_error_of_mem {α β ε : Type} (embed : α → Except ε β) :
    ∀ b : List α, (∃ a ∈ b, ∃ e, embed a = .error e) →
      ∃ e, gatherE embed b = .error e := by
  intro b
  induction b with
  | nil => intro h; simp at h
  | cons a as ih =>
    intro h
    rcases ha : embed a with e | v
    · exact ⟨e, by simp [gatherE, ha]⟩
    · obtain ⟨x, hx, e, he⟩ := h
      rcases List.mem_cons.mp hx with rfl | hx2
      · rw [ha] at he; cases he
      · obtain ⟨e2, he2⟩ := ih ⟨x, hx2, e, he⟩
        exact ⟨e2, by simp [gatherE, ha, he2]⟩

lemma runWaves_cons_error {α β ε : Type} (embed : α → Except ε β)
    (b : List α) (bs : List (List α)) (k : Nat) (store : List (α × β))
    (tr : List Ev) (e : ε) (hg : gatherE embed b = .error e) :
    runWaves embed (b :: bs) k store tr =
      (store, tr ++ b.map (fun _ => Ev.call k), some e) := by
  simp only [runWaves, hg]

lemma runWaves_cons_ok {α β ε : Type} (embed : α → Except ε β)
    (b : List α) (bs : List (List α)) (k : Nat) (store : List (α × β))
    (tr : List Ev) (embs : List β) (hg : gatherE embed b = .ok embs) :
    runWaves embed (b :: bs) k store tr =
      runWaves embed bs (k + 1) (store ++ b.zip embs)
        ((tr ++ b.map (fun _ => Ev.call k)) ++ [Ev.commit k]) := by
  simp only [runWaves, hg]

lemma runWaves_all_ok {α β ε : Type} (embed : α → Except ε β) :
    ∀ (bs : List (List α)) (k : Nat) (store : List (α × β)) (tr : List Ev),
      (∀ b ∈ bs, ∀ a ∈ b, ∃ v, embed a = .ok v) →
      ∃ s tr2, runWaves embed bs k store tr = (s, tr2, none) := by
  intro bs
  induction bs with
  | nil => intro k store tr _; exact ⟨store, tr, rfl⟩
  | cons b rest ih =>
    intro k store tr h
    obtain ⟨embs, hembs⟩ := gatherE_ok_of_all embed b
      (h b (List.mem_cons_self b rest))
    obtain ⟨s, tr2, hrun⟩ := ih (k + 1) (store ++ b.zip embs)
      ((tr ++ b.map (fun _ => Ev.call k)) ++ [Ev.commit k])
      (fun x hx => h x (List.mem_cons_of_mem b hx))
    refine ⟨s, tr2, ?_⟩
    rw [runWaves_cons_ok embed b rest k store tr embs hembs]
    exact hrun

lemma runWaves_append {α β ε : Type} (embed : α → Except ε β) :
    ∀ (bs1 bs2 : List (List α)) (k : Nat) (store : List (α × β)) (tr : List Ev)
      (s : List (α × β)) (tr2 : List Ev),
      runWaves embed bs1 k store tr = (s, tr2, none) →
      runWaves embed (bs1 ++ bs2) k store tr =
        runWaves embed bs2 (k + bs1.length) s tr2 := by
  intro bs1
  induction bs1 with
  | nil =>
    intro bs2 k store tr s tr2 h
    obtain ⟨rfl, rfl⟩ : store = s ∧ tr = tr2 := by
      simp [runWaves] at h
      exact ⟨h.1, h.2⟩
    simp
  | cons b rest ih =>
    intro bs2 k store tr s tr2 h
    rcases hg : gatherE embed b with e | embs
    · rw [runWaves_cons_error embed b rest k store tr e hg] at h
      simp at h
    · rw [runWaves_cons_ok embed b rest k store tr embs hg] at h
      rw [List.cons_append, runWaves_cons_ok embed b (rest ++ bs2) k store tr embs hg]
      rw [ih bs2 (k + 1) _ _ s tr2 h]
      congr 1
      simp only [List.length_cons]
      omega

/-- C5: if every segment of the waves before wave `K` embeds
successfully and some segment of wave `K` fails terminally, the run ends
with that error; the store holds exactly the rows committed by the waves
before `K` (they are not rolled back), nothing of wave `K` or any later
wave is stored, and no event after wave `K`'s dispatched calls occurs. -/
theorem wave_failure_halts {α β ε : Type} (embed : α → Except ε β)
    (pre : List (List α)) (bad : List α) (rest : List (List α))
    (hpre : ∀ b ∈ pre, ∀ a ∈ b, ∃ v, embed a = .ok v)
    (hbad : ∃ a ∈ bad, ∃ e, embed a = .error e) :
    ∃ s tr e, runWaves embed pre 0 [] [] = (s, tr, none) ∧
      runWaves embed (pre ++ bad :: rest) 0 [] [] =
        (s, tr ++ bad.map (fun _ => Ev.call pre.length), some e) := by
  obtain ⟨s, tr, hok⟩ := runWaves_all_ok embed pre 0 [] [] hpre
  obtain ⟨e, he⟩ := gatherE_error_of_mem embed bad hbad
  refine ⟨s, tr, e, hok, ?_⟩
  rw [runWaves_append embed pre (bad :: rest) 0 [] [] s tr hok]
  rw [runWaves_cons_error embed bad rest (0 + pre.length) s tr e he]
  rw [Nat.zero_add]

/-- C5 witness instance. -/
theorem wave_failure_halts_witness :
    ∃ s tr e,
      runWaves (fun n : Nat => if n = 0 then Except.ok n else Except.error "boom")
        [[0]] 0 [] [] = (s, tr, none) ∧
      runWaves (fun n : Nat => if n = 0 then Except.ok n else Except.error "boom")
        ([[0]] ++ [0, 1] :: [[0]]) 0 [] [] =
        (s, tr ++ [0, 1].map (fun _ => Ev.call [[0]].length), some e) :=
  wave_failure_halts _ [[0]] [0, 1] [[0]]
    (by
      intro b hb a ha
      simp only [List.mem_singleton] at hb
      subst hb
      simp only [List.mem_singleton] at ha
      subst ha
      exact ⟨0, rfl⟩)
    ⟨1, by simp, "boom", rfl⟩

/-- Position of an event in the wave order: calls of wave `k` at `2k`,
the commit of wave `k` at `2k + 1`. -/
def evKey : Ev → Nat
  | .call k => 2 * k
  | .commit k => 2 * k + 1

lemma pairwise_const_calls (n : Nat) (k : Nat) :
    (List.replicate n (Ev.call k)).Pairwise (fun a b => evKey a ≤ evKey b) := by
  induction n with
  | zero => simp
  | succ m ih =>
    rw [List.replicate_succ]
    refine List.Pairwise.cons ?_ ih
    intro e he
    rw [List.eq_of_mem_replicate he]

lemma runWaves_trace_sorted {α β ε : Type} (embed : α → Except ε β) :
    ∀ (bs : List (List α)) (k : Nat) (store : List (α × β)) (tr : List Ev)
      (s : List (α × β)) (tr2 : List Ev) (err : Option ε),
      (∀ e ∈ tr, evKey e < 2 * k) →
      tr.Pairwise (fun a b => evKey a ≤ evKey b) →
      runWaves embed bs k store tr = (s, tr2, err) →
      tr2.Pairwise (fun a b => evKey a ≤ evKey b) := by
  intro bs
  induction bs with
  | nil =>
    intro k store tr s tr2 err hlt hp h
    injection h with ha hb
    injection hb with hc hd
    subst hc
    exact hp
  | cons b rest ih =>
    intro k store tr s tr2 err hlt hp h
    have hcalls : (b.map (fun _ => Ev.call k)).Pairwise
        (fun a b => evKey a ≤ evKey b) := by
      rw [List.map_const']
      exact pairwise_const_calls b.length k
    have htr1 : (tr ++ b.map (fun _ => Ev.call k)).Pairwise
        (fun a b => evKey a ≤ evKey b) := by
      rw [List.pairwise_append]
      refine ⟨hp, hcalls, ?_⟩
      intro x hx y hy
      have hxk := hlt x hx
      have hyk : evKey y = 2 * k := by
        rw [List.map_const'] at hy
        rw [List.eq_of_mem_replicate hy]
        rfl
      omega
    rcases hg : gatherE embed b with e | embs
    · rw [runWaves_cons_error embed b rest k store tr e hg] at h
      injection h with ha hb
      injection hb with hc hd
      subst hc
      exact htr1
    · rw [runWaves_cons_ok embed b rest k store tr embs hg] at h
      apply ih (k + 1) (store ++ b.zip embs) _ s tr2 err _ _ h
      · intro x hx
        rcases List.mem_append.mp hx with hx1 | hx2
        · rcases List.mem_append.mp hx1 with hx3 | hx4
          · have := hlt x hx3
            omega
          · rw [List.map_const'] at hx4
            rw [List.eq_of_mem_replicate hx4]
            simp only [evKey]
            omega
        · rw [List.mem_singleton] at hx2
          subst hx2
          simp only [evKey]
          omega
      · rw [List.pairwise_append]
        refine ⟨htr1, List.pairwise_singleton _ _, ?_⟩
        intro x hx y hy
        rw [List.mem_singleton] at hy
        subst hy
        rcases List.mem_append.mp hx with hx1 | hx2
        · have h2 : evKey (Ev.commit k) = 2 * k + 1 := rfl
          have := hlt x hx1
          omega
        · rw [List.map_const'] at hx2
          rw [List.eq_of_mem_replicate hx2]
          simp only [evKey]
          omega

/-- C6: in any run of the wave loop, the insert-and-commit of wave `K`
happens strictly before every embedding call of wave `K + 1` in the
event trace: wave `K + 1` never starts before wave `K`'s rows are
persisted. -/
theorem wave_commit_before_next_wave {α β ε : Type} (embed : α → Except ε β)
    (batches : List (List α)) (s : List (α × β)) (tr : List Ev) (err : Option ε)
    (hrun : runWaves embed batches 0 [] [] = (s, tr, err))
    (i j k : Nat)
    (hi : tr[i]? = some (Ev.commit k)) (hj : tr[j]? = some (Ev.call (k + 1))) :
    i < j := by
  have hp := runWaves_trace_sorted embed batches 0 [] [] s tr err
    (by simp) (by simp) hrun
  obtain ⟨hib, hiv⟩ := List.getElem?_eq_some_iff.mp hi
  obtain ⟨hjb, hjv⟩ := List.getElem?_eq_some_iff.mp hj
  rcases Nat.lt_or_ge i j with hlt | hge
  · exact hlt
  · exfalso
    rcases Nat.eq_or_lt_of_le hge with heq | hlt2
    · subst heq
      rw [hi] at hj
      simp at hj
    · have hle := (List.pairwise_iff_getElem.mp hp) j i hjb hib hlt2
      rw [hiv, hjv] at hle
      simp only [evKey] at hle
      omega

/-- C6 witness instance. -/
theorem wave_commit_before_next_wave_witness :
    runWaves (fun n : Nat => (Except.ok n : Except String Nat)) [[5], [7]] 0 [] []
        = ([(5, 5), (7, 7)], [Ev.call 0, Ev.commit 0, Ev.call 1, Ev.commit 1], none) ∧
      (1 : Nat) < 2 :=
  ⟨rfl,
    wave_commit_before_next_wave (fun n : Nat => (Except.ok n : Except String Nat))
      [[5], [7]] [(5, 5), (7, 7)] [Ev.call 0, Ev.commit 0, Ev.call 1, Ev.commit 1] none
      rfl 1 2 0 (by decide) (by decide)⟩

/-! ## Ingestion Orchestrator: building `to_insert` -/

/-- A discourse post as parsed from JSON: every field may be absent from
the dict (`post[...]` raises `KeyError` on an absent key). -/
structure DiscoursePost where
  post_id : Option Int
  topic_id : Option Int
  topic_title : Option String
  post_number : Option Int
  author : Option String
  created_at : Option String
  like_count : Option Int
  content : Option String
  url : Option String
deriving DecidableEq

/-- A metadata entry of the markdown corpus (`metadata.json`). -/
structure MdMeta where
  filename : String
  title : String
  original_url : String
  downloaded_at : String
deriving DecidableEq

/-- The `to_insert` construction of `process_discourse`:
`chunk_text(post["content"])` raises `KeyError` when the post has no
`content` field, and the uncaught exception aborts the whole batch —
there is no per-document skip.  (The later insert also reads
`post["post_id"]`, `post["post_number"]`, `post["author"]`,
`post["created_at"]` and `post["url"]` unguarded.) -/
def buildDiscourseChunks : List DiscoursePost →
    Except String (List (DiscoursePost × Nat × List Char))
  | [] => .ok []
  | p :: ps =>
    match p.content with
    | none => .error "KeyError: content"
    | some c =>
      match buildDiscourseChunks ps with
      | .error e => .error e
      | .ok rest =>
        .ok ((((chunk_text c.data 500 100).getD []).enum.map
          (fun q => (p, q.1, q.2))) ++ rest)

/-- First closing `---` of the front-matter pattern: the least `i ≥ 3`
with `s[i:i+3] = "---"` (the non-greedy `.*?`). -/
def fmClose (s : List Char) : Option Nat :=
  (List.range (s.length + 1)).find?
    (fun i => decide (3 ≤ i) && decide ((s.drop i).take 3 = ['-', '-', '-']))

/-- `re.sub(r'^---.*?---\s*', '', content, flags=re.DOTALL)`: when the
text starts with `---` and has a later `---`, remove through the first
such occurrence and the whitespace after it; otherwise leave the text
unchanged. -/
def stripFrontMatter (s : List Char) : List Char :=
  if s.take 3 = ['-', '-', '-'] then
    match fmClose s with
    | some i => (s.drop (i + 3)).dropWhile Char.isWhitespace
    | none => s
  else s

/-- The `to_insert` construction of `process_markdown`: a listed file
that is absent on disk (`os.path.exists` false) is skipped with
`continue`; a present file is read, front-matter stripped, chunked and
appended.  `fs` models the markdown directory, filename to content. -/
def buildMarkdownChunks (fs : String → Option (List Char)) :
    List MdMeta → List (MdMeta × Nat × List Char)
  | [] => []
  | m :: ms =>
    match fs m.filename with
    | none => buildMarkdownChunks fs ms
    | some content =>
      (((chunk_text (stripFrontMatter content) 500 100).getD []).enum.map
        (fun q => (m, q.1, q.2))) ++ buildMarkdownChunks fs ms

/-- A post with all fields present. -/
def goodPost : DiscoursePost :=
  ⟨some 1, some 10, some "t", some 1, some "alice", some "2025-01-01", some 0,
    some "hi", some "u1"⟩

/-- A post whose body text (`content`) is absent. -/
def badPost : DiscoursePost :=
  ⟨some 2, some 10, some "t", some 2, some "bob", some "2025-01-02", some 0,
    none, some "u2"⟩

/-- C8 counterexample: a batch containing one post without the required
`content` field aborts with `KeyError` instead of skipping that one
document and processing the remaining ones. -/
theorem missing_field_aborts_batch :
    buildDiscourseChunks [goodPost, badPost, goodPost] = .error "KeyError: content" := by
  rfl

lemma buildMarkdown_skip (fs : String → Option (List Char)) (m : MdMeta)
    (hm : fs m.filename = none) :
    ∀ pre post, buildMarkdownChunks fs (pre ++ m :: post) =
      buildMarkdownChunks fs (pre ++ post) := by
  intro pre
  induction pre with
  | nil =>
    intro post
    simp only [List.nil_append, buildMarkdownChunks, hm]
  | cons q qs ih =>
    intro post
    simp only [List.cons_append]
    rcases hq : fs q.filename with _ | c
    · simp only [buildMarkdownChunks, hq]
      exact ih post
    · simp only [buildMarkdownChunks, hq]
      rw [ih post]

lemma buildDiscourse_error_of_missing :
    ∀ (posts : List DiscoursePost), (∃ p ∈ posts, p.content = none) →
      ∃ e, buildDiscourseChunks posts = .error e := by
  intro posts
  induction posts with
  | nil => intro h; simp at h
  | cons q qs ih =>
    intro h
    rcases hq : q.content with _ | c
    · exact ⟨"KeyError: content", by simp only [buildDiscourseChunks, hq]⟩
    · obtain ⟨p, hp, hpc⟩ := h
      rcases List.mem_cons.mp hp with rfl | hp2
      · rw [hq] at hpc
        cases hpc
      · obtain ⟨e, he⟩ := ih ⟨p, hp2, hpc⟩
        refine ⟨e, ?_⟩
        simp only [buildDiscourseChunks, hq, he]

/-- C8 amended: only a markdown-corpus entry whose referenced file is
absent on disk is skipped, with the remaining entries processed
unchanged; a document missing a required field (here a post without its
body text) is not skipped — the whole batch build aborts with an
error. -/
theorem missing_file_skips_missing_field_aborts
    (fs : String → Option (List Char)) (m : MdMeta) (pre post : List MdMeta)
    (hm : fs m.filename = none)
    (pre2 post2 : List DiscoursePost) (p : DiscoursePost)
    (hp : p.content = none) :
    buildMarkdownChunks fs (pre ++ m :: post) = buildMarkdownChunks fs (pre ++ post) ∧
      ∃ e, buildDiscourseChunks (pre2 ++ p :: post2) = .error e :=
  ⟨buildMarkdown_skip fs m hm pre post,
    buildDiscourse_error_of_missing (pre2 ++ p :: post2)
      ⟨p, by simp, hp⟩⟩

/-- A two-file markdown directory fixture missing `b.md`. -/
def mdFs : String → Option (List Char) :=
  fun fname => if fname = "a.md" then some "A".data else none

/-- Markdown metadata entries for the fixture. -/
def mdA : MdMeta := ⟨"a.md", "ta", "ua", "da"⟩

/-- A listed entry whose file is absent on disk. -/
def mdB : MdMeta := ⟨"b.md", "tb", "ub", "db"⟩

/-- C8 amended witness instance. -/
theorem missing_file_skips_missing_field_aborts_witness :
    mdFs mdB.filename = none ∧ badPost.content = none ∧
      (buildMarkdownChunks mdFs ([mdA] ++ mdB :: []) =
          buildMarkdownChunks mdFs ([mdA] ++ []) ∧
        ∃ e, buildDiscourseChunks ([goodPost] ++ badPost :: []) = .error e) :=
  ⟨rfl, rfl,
    missing_file_skips_missing_field_aborts mdFs mdB [mdA] [] rfl
      [goodPost] [] badPost rfl⟩

/-! ## Startup configuration check (module level and `main`) -/

/-- Observable actions of a run of the script. -/
inductive Act where
  | removeDb
  | createDb
  | readSource (file : String)
  | embedCall
deriving DecidableEq

/-- The script: the module-level guard
`if not API_KEY: raise RuntimeError(...)` runs before `main` ever does;
`main` then deletes an existing store file, creates the fresh store, and
performs the ingestion work (document reads and embedding calls,
abstracted as `work`). -/
def runScript (env : String → Option String) (dbExists : Bool)
    (work : List Act) : Except String (List Act) :=
  match env "API_KEY" with
  | none =>
    .error "API_KEY environment variable not set. Please set it in your .env file."
  | some key =>
    if key = "" then
      .error "API_KEY environment variable not set. Please set it in your .env file."
    else
      .ok ((if dbExists then [Act.removeDb] else []) ++ Act.createDb :: work)

/-- The actions a run actually performed: none when it aborted. -/
def actsOf : Except String (List Act) → List Act
  | .error _ => []
  | .ok acts => acts

/-- C9: with the bearer credential absent from the environment, the run
aborts with the configuration error before doing any work: the existing
store file is not deleted, no store is created, no source document is
read and no embedding call is made. -/
theorem missing_api_key_aborts (env : String → Option String) (dbExists : Bool)
    (work : List Act) (henv : env "API_KEY" = none) :
    runScript env dbExists work =
      .error "API_KEY environment variable not set. Please set it in your .env file." ∧
      actsOf (runScript env dbExists work) = [] := by
  unfold runScript
  rw [henv]
  exact ⟨rfl, rfl⟩

/-- C9 witness instance. -/
theorem missing_api_key_aborts_witness :
    runScript (fun _ => none) true [Act.readSource "discourse_posts.json", Act.embedCall] =
        .error "API_KEY environment variable not set. Please set it in your .env file." ∧
      actsOf (runScript (fun _ => none) true
        [Act.readSource "discourse_posts.json", Act.embedCall]) = [] :=
  missing_api_key_aborts (fun _ => none) true
    [Act.readSource "discourse_posts.json", Act.embedCall] rfl

end KB
